import Mathlib

/-!
# humio/cli-python, src/main.go: the event batching and delivery pipeline

A shallow embedding of `sendLine`, `sendBatch` and the accumulator loop of
`startSending`.

* Go strings are `String`; a `map[string]string` literal is the list of its
  key/value pairs (the keys written in the source are distinct).
* What the program obtains from outside (the clock, `json.Marshal`,
  `url.Parse` inside `http.NewRequest`, `client.Do`, `ioutil.ReadAll`) is an
  explicit input of the function that uses it.
* The goroutine of `startSending` is a step function on its local state: one
  step per receive on the channel `events`, driven by what that receive
  observes.
-/

namespace Humio

/-! ## Data model (main.go 22-43) -/

/-- The size threshold, `var batchLimit = 500`. -/
def batchLimit : Nat := 500

/-- The capacity of the channel, `make(chan event, 500)`. -/
def eventsCap : Nat := 500

/-- The Go `type event struct`. -/
structure event where
  Timestamp : String
  Attributes : List (String × String)
  RawString : String
deriving DecidableEq, Repr

/-- The Go `type eventList struct`. -/
structure eventList where
  Tags : List (String × String)
  Events : List event
deriving DecidableEq, Repr

/-- The Go `type config struct`. -/
structure config where
  ServerURL : String
  AuthToken : String
  DataspaceID : String
  SessionID : String
  Name : String
deriving DecidableEq, Repr

/-- Lookup of a key in a map given by its key/value pairs. -/
def mapGet (m : List (String × String)) (k : String) : Option String :=
  (m.find? (fun p => p.1 == k)).map (fun p => p.2)

/-! ## sendLine (main.go 104-115) -/

/-- The value `theEvent` of `sendLine`; `now` is the text of
`time.Now().UTC().Format(time.RFC3339)`. -/
def theEvent (cfg : config) (line : String) (now : String) : event :=
  { Timestamp := now
    Attributes := [("@session", cfg.SessionID), ("@name", cfg.Name)]
    RawString := line }

/-- The send `events <- theEvent` on the buffered channel whose content is `queue`:
`some` of the new content when there is room, `none` while the channel is
full (the sender stays suspended and the channel is unchanged). -/
def sendLine (cfg : config) (line : String) (now : String) (queue : List event) :
    Option (List event) :=
  if queue.length < eventsCap then some (queue ++ [theEvent cfg line now]) else none

/-! ## sendBatch (main.go 45-78) -/

/-- What `http.NewRequest` stores and `Header.Set` fills in. -/
structure Request where
  Method : String
  URL : String
  Header : List (String × String)
  Body : String
deriving DecidableEq, Repr

/-- The `Header.Set key value`: the entry for `key` is replaced. Both keys used by
`sendBatch` are already in canonical MIME form. -/
def headerSet (h : List (String × String)) (k v : String) : List (String × String) :=
  h.filter (fun p => !(p.1 == k)) ++ [(k, v)]

/-- The response of `client.Do`: the status code and what `ioutil.ReadAll` of the
body gives (an error or the data). -/
structure Response where
  StatusCode : Int
  Body : Except String String

/-- The collaborators of `sendBatch` outside the repository. -/
structure Env where
  /-- The `json.Marshal` of the one-element array. -/
  marshal : List eventList → Except String String
  /-- The error of `url.Parse` inside `http.NewRequest`, if any. -/
  urlError : String → Option String
  /-- The `client.Do`. -/
  clientDo : Request → Except String Response

/-- With `http.NewRequest method url body`: on a parse error the returned request
pointer is nil (`none`) and the error is set; otherwise the request carries the
method, the URL, an empty header and the body. -/
def newRequest (env : Env) (method url body : String) : Option Request × Option String :=
  match env.urlError url with
  | some err => (none, some err)
  | none => (some { Method := method, URL := url, Header := [], Body := body }, none)

/-- How a call of `sendBatch` ends. -/
inductive Outcome where
  /-- Falls off the end of the function: the caller goes on. -/
  | returned
  /-- Ended by `log.Fatal msg`: the process exits. -/
  | logFatal (msg : String)
  /-- Ended by `panic(err)` with an error value of the function. -/
  | panicErr (err : String)
  /-- Run-time panic: a field of a nil `*http.Request` is read. -/
  | nilDeref
deriving DecidableEq, Repr

/-- The result of a call of `sendBatch`: how it ended and the requests it handed to
`client.Do`. -/
structure SendResult where
  outcome : Outcome
  issued : List Request
deriving DecidableEq, Repr

/-- The function `sendBatch`, statement by statement. -/
def sendBatch (env : Env) (cfg : config) (events : List event) : SendResult :=
  -- 47-55
  match env.marshal [{ Tags := [], Events := events }] with
  | .error marshalErr => { outcome := .logFatal marshalErr, issued := [] }
  | .ok lineJSON =>
    -- 57-58
    let ingestURL := cfg.ServerURL ++ "api/v1/dataspaces/" ++ cfg.DataspaceID ++ "/ingest"
    let (lineReq, reqErr) := newRequest env "POST" ingestURL lineJSON
    -- 59-60: lineReq.Header is read before reqErr is looked at
    match lineReq with
    | none => { outcome := .nilDeref, issued := [] }
    | some r0 =>
      let r1 := { r0 with Header := headerSet r0.Header "Authorization" ("Bearer " ++ cfg.AuthToken) }
      let r2 := { r1 with Header := headerSet r1.Header "Content-Type" "application/json" }
      -- 62-64
      match reqErr with
      | some e => { outcome := .panicErr e, issued := [] }
      | none =>
        -- 66-69
        match env.clientDo r2 with
        | .error clientErr => { outcome := .panicErr clientErr, issued := [r2] }
        | .ok resp =>
          -- 70-76
          if resp.StatusCode > 400 then
            match resp.Body with
            | .error readErr => { outcome := .panicErr readErr, issued := [r2] }
            | .ok responseData => { outcome := .logFatal responseData, issued := [r2] }
          else
            -- 77
            { outcome := .returned, issued := [r2] }

/-- Whether the call ended the process (anything but a normal return). -/
def Outcome.fatal : Outcome → Bool
  | .returned => false
  | _ => true

/-! ## startSending (main.go 80-102) -/

/-- What a receive on the channel `events` observes. -/
inductive Obs where
  /-- A value is delivered. -/
  | avail (v : event)
  /-- Nothing is queued. -/
  | empty
deriving DecidableEq, Repr

/-- Where the goroutine stands between two receives. -/
inductive PC where
  /-- At the `select` of line 85. -/
  | head
  /-- In the blocking receive `<-events` of line 98. -/
  | recv
deriving DecidableEq, Repr

/-- The state of the goroutine: its local `batch`, and two logs, the arguments of
the calls of `sendBatch` so far and the values received from `events` so far. -/
structure Acc where
  pc : PC
  batch : List event
  sent : List (List event)
  received : List event
deriving DecidableEq, Repr

/-- The state at `var batch []event`, before the first iteration. -/
def Acc.init : Acc := { pc := .head, batch := [], sent := [], received := [] }

/-- The goroutine parked in the receive of line 98 with nothing received yet. -/
def Acc.parked : Acc := { pc := .recv, batch := [], sent := [], received := [] }

/-- One receive of the loop body, for the threshold `limit`. The call
`sendBatch(config, batch)` is logged in `sent` with its argument; it leaves
the locals of the loop untouched and either returns, after which
`batch = batch[:0]` runs, or ends the whole process, so the states of the
loop are those reached along returning calls. -/
def accStep (limit : Nat) (s : Acc) (o : Obs) : Acc :=
  match s.pc, o with
  | .head, .avail v =>
    -- 86-91
    let batch := s.batch ++ [v]
    if batch.length ≥ limit then
      { pc := .head, batch := [], sent := s.sent ++ [batch], received := s.received ++ [v] }
    else
      { pc := .head, batch := batch, sent := s.sent, received := s.received ++ [v] }
  | .head, .empty =>
    -- 92-96, then the goroutine enters the receive of line 98
    if s.batch.length > 0 then
      { pc := .recv, batch := [], sent := s.sent ++ [s.batch], received := s.received }
    else
      { pc := .recv, batch := s.batch, sent := s.sent, received := s.received }
  | .recv, .avail v =>
    -- 98: the value is appended with no size check, back to the head of the loop
    { pc := .head, batch := s.batch ++ [v], sent := s.sent, received := s.received ++ [v] }
  | .recv, .empty =>
    -- 98: still waiting
    s

/-- The loop along a schedule of observations. -/
def accRun (limit : Nat) (s : Acc) (obs : List Obs) : Acc :=
  obs.foldl (accStep limit) s

/-- The goroutine of `startSending`: the loop with `batchLimit`, from its start. -/
def startSending (obs : List Obs) : Acc :=
  accRun batchLimit Acc.init obs

/-- The events a schedule delivers, in order. -/
def eventsOf (obs : List Obs) : List event :=
  obs.filterMap (fun o => match o with
    | .avail v => some v
    | .empty => none)

/-! ## Concrete inputs -/

/-- An environment in which encoding and URL parsing succeed and the endpoint
answers `resp`. -/
def Env.answering (json : String) (resp : Response) : Env :=
  { marshal := fun _ => .ok json
    urlError := fun _ => none
    clientDo := fun _ => .ok resp }

/-- An environment in which `url.Parse` rejects every URL with `err`. -/
def Env.rejectingURL (json err : String) (resp : Response) : Env :=
  { marshal := fun _ => .ok json
    urlError := fun _ => some err
    clientDo := fun _ => .ok resp }

/-- The session of the scenario: id "s1", name "demo". -/
def demoConfig : config :=
  { ServerURL := "https://cloud.humio.com/"
    AuthToken := "tok"
    DataspaceID := "scratch"
    SessionID := "s1"
    Name := "demo" }

/-- A session whose server URL does not parse (`url.Parse`: missing protocol scheme). -/
def colonConfig : config := { demoConfig with ServerURL := ":" }

/-- The events of the lines "a" and "b" under `demoConfig`. -/
def evA : event := theEvent demoConfig "a" "2017-01-01T00:00:00Z"

/-- The event of line "b". -/
def evB : event := theEvent demoConfig "b" "2017-01-01T00:00:01Z"

/-! ## Invariants and the chunks of a sequence -/

/-- The order invariant: dispatched batches followed by the batch in progress are
the events received. -/
def OrderInv (s : Acc) : Prop := s.sent.flatten ++ s.batch = s.received

/-- The size invariant for a threshold of at least 2: fewer than `L` events in
progress at the loop head, none during the blocking receive, and between 1
and `L` events in every dispatched batch. -/
def SizeInv (L : Nat) (s : Acc) : Prop :=
  (s.pc = .head → s.batch.length < L) ∧ (s.pc = .recv → s.batch = []) ∧
  ∀ b ∈ s.sent, 1 ≤ b.length ∧ b.length ≤ L

/-- During the blocking receive the batch in progress is empty. -/
def RecvInv (s : Acc) : Prop := s.pc = .recv → s.batch = []

/-- The consecutive chunks of `es` for the size `L`: `es.length / L` chunks of `L`
events, then the remaining `es.length % L` events when there are any. -/
def consecutiveChunks (L : Nat) (es : List event) : List (List event) :=
  (List.range (es.length / L)).map (fun i => (es.drop (L * i)).take L) ++
    (if es.length % L = 0 then [] else [es.drop (L * (es.length / L))])

/-! ## Theorems: sendLine and sendBatch -/

/-- C5: for every line (the empty one included) and session, the event `sendLine`
builds and puts on the channel has `RawString` equal to the line and
`Attributes` equal to the two-entry map of "@session" and "@name"; two
normalizations of one line under one session agree on attributes and raw
text whatever their timestamps. -/
theorem sendLine_builds_event (cfg : config) (line now now2 : String) (queue : List event)
    (hroom : queue.length < eventsCap) :
    sendLine cfg line now queue = some (queue ++ [theEvent cfg line now]) ∧
    (theEvent cfg line now).RawString = line ∧
    (theEvent cfg line now).Attributes = [("@session", cfg.SessionID), ("@name", cfg.Name)] ∧
    mapGet (theEvent cfg line now).Attributes "@session" = some cfg.SessionID ∧
    mapGet (theEvent cfg line now).Attributes "@name" = some cfg.Name ∧
    (theEvent cfg line now).Timestamp = now ∧
    (theEvent cfg line now2).Attributes = (theEvent cfg line now).Attributes ∧
    (theEvent cfg line now2).RawString = (theEvent cfg line now).RawString := by
  refine ⟨by simp [sendLine, hroom], rfl, rfl, ?_, ?_, rfl, rfl, rfl⟩
  · simp [mapGet, theEvent, List.find?]
  · have h : ("@session" == "@name") = false := by decide
    simp [mapGet, theEvent, List.find?, h]

/-- Witness of C5 at the empty line and an empty channel. -/
theorem sendLine_builds_event_witness :
    ([] : List event).length < eventsCap ∧
    sendLine demoConfig "" "t1" [] = some ([] ++ [theEvent demoConfig "" "t1"]) ∧
    (theEvent demoConfig "" "t1").RawString = "" :=
  ⟨by decide,
   (sendLine_builds_event demoConfig "" "t1" "t2" [] (by decide)).1,
   (sendLine_builds_event demoConfig "" "t1" "t2" [] (by decide)).2.1⟩

/-- C6: when encoding and request construction succeed, `sendBatch` hands exactly
one request to the client: method POST, URL `ServerURL ++ "api/v1/dataspaces/"
++ DataspaceID ++ "/ingest"`, header Authorization "Bearer " ++ token, header
Content-Type "application/json", and as body the encoding of the one-element
array whose element has an empty tags map and the events in the given order. -/
theorem sendBatch_request (env : Env) (cfg : config) (E : List event) (body : String)
    (hm : env.marshal [{ Tags := [], Events := E }] = .ok body)
    (hu : env.urlError (cfg.ServerURL ++ "api/v1/dataspaces/" ++ cfg.DataspaceID ++ "/ingest")
      = none) :
    ∃ r : Request, (sendBatch env cfg E).issued = [r] ∧
      r.Method = "POST" ∧
      r.URL = cfg.ServerURL ++ "api/v1/dataspaces/" ++ cfg.DataspaceID ++ "/ingest" ∧
      mapGet r.Header "Authorization" = some ("Bearer " ++ cfg.AuthToken) ∧
      mapGet r.Header "Content-Type" = some "application/json" ∧
      r.Header.length = 2 ∧
      r.Body = body := by
  have h1 : ("Authorization" == "Content-Type") = false := by decide
  refine ⟨{ Method := "POST"
            URL := cfg.ServerURL ++ "api/v1/dataspaces/" ++ cfg.DataspaceID ++ "/ingest"
            Header := [("Authorization", "Bearer " ++ cfg.AuthToken),
                       ("Content-Type", "application/json")]
            Body := body }, ?_, rfl, rfl, ?_, ?_, rfl, rfl⟩
  · simp only [sendBatch, hm, newRequest, hu, headerSet, List.filter, List.nil_append,
      h1, Bool.not_false, List.singleton_append]
    cases hd : env.clientDo _ with
    | error e => rfl
    | ok resp =>
      simp only []
      split
      · cases hb : resp.Body <;> rfl
      · rfl
  · simp [mapGet, List.find?]
  · simp [mapGet, List.find?, h1]

/-- Witness of C6 for the session "s1"/"demo" and the events of lines "a", "b". -/
theorem sendBatch_request_witness :
    ∃ r : Request,
      (sendBatch (Env.answering "J" { StatusCode := 200, Body := .ok "" }) demoConfig
        [evA, evB]).issued = [r] ∧
      r.Method = "POST" ∧
      r.URL = demoConfig.ServerURL ++ "api/v1/dataspaces/" ++ demoConfig.DataspaceID ++ "/ingest" ∧
      mapGet r.Header "Authorization" = some ("Bearer " ++ demoConfig.AuthToken) ∧
      mapGet r.Header "Content-Type" = some "application/json" ∧
      r.Header.length = 2 ∧
      r.Body = "J" :=
  sendBatch_request (Env.answering "J" { StatusCode := 200, Body := .ok "" }) demoConfig
    [evA, evB] "J" rfl rfl

/-- C1 (as the code behaves): once the endpoint has answered, `sendBatch` ends
fatally exactly for the status codes above 400; at status 400 itself it
returns normally although 400 is at least 400. -/
theorem sendBatch_status_400_returns (cfg : config) (E : List event) (json : String)
    (s : Int) (rd : Except String String) :
    ((sendBatch (Env.answering json { StatusCode := s, Body := rd }) cfg E).outcome.fatal = true
      ↔ s > 400) ∧
    (sendBatch (Env.answering json { StatusCode := 400, Body := rd }) cfg E).outcome
      = .returned := by
  constructor
  · simp only [sendBatch, Env.answering, newRequest]
    by_cases h : s > 400
    · simp only [h, if_true, iff_true]
      cases rd <;> rfl
    · simp only [h, if_false, iff_false]
      simp [Outcome.fatal]
  · simp [sendBatch, Env.answering, newRequest]

/-- C10 (as the code behaves): when `http.NewRequest` fails, `sendBatch` reads the
header of the nil request before it looks at `reqErr`: the call ends in a
nil dereference, not in `panic(reqErr)`, and no request is issued. -/
theorem sendBatch_newRequest_error_nilDeref (cfg : config) (E : List event)
    (json err : String) (resp : Response) :
    (sendBatch (Env.rejectingURL json err resp) cfg E).outcome = .nilDeref ∧
    (sendBatch (Env.rejectingURL json err resp) cfg E).outcome ≠ .panicErr err ∧
    (sendBatch (Env.rejectingURL json err resp) cfg E).issued = [] ∧
    (sendBatch (Env.rejectingURL json "missing protocol scheme" resp) colonConfig [evA]).outcome
      = .nilDeref := by
  simp [sendBatch, Env.rejectingURL, newRequest]


/-! ## Lemmas on the accumulator loop -/

theorem accRun_nil (L : Nat) (s : Acc) : accRun L s [] = s := rfl

theorem accRun_cons (L : Nat) (s : Acc) (o : Obs) (obs : List Obs) :
    accRun L s (o :: obs) = accRun L (accStep L s o) obs := rfl

theorem accRun_append (L : Nat) (s : Acc) (a b : List Obs) :
    accRun L s (a ++ b) = accRun L (accRun L s a) b := by
  simp [accRun, List.foldl_append]

theorem eventsOf_append (a b : List Obs) : eventsOf (a ++ b) = eventsOf a ++ eventsOf b := by
  simp [eventsOf, List.filterMap_append]

theorem eventsOf_map_avail (es : List event) : eventsOf (es.map Obs.avail) = es := by
  induction es with
  | nil => rfl
  | cons e es ih =>
    have : eventsOf (Obs.avail e :: es.map Obs.avail) = e :: eventsOf (es.map Obs.avail) := rfl
    simp [this, ih]

theorem eventsOf_replicate_empty (k : Nat) : eventsOf (List.replicate k Obs.empty) = [] := by
  induction k with
  | zero => rfl
  | succ k ih =>
    have : eventsOf (Obs.empty :: List.replicate k Obs.empty)
        = eventsOf (List.replicate k Obs.empty) := rfl
    simp [List.replicate_succ, this, ih]

theorem orderInv_step (L : Nat) (s : Acc) (o : Obs) (h : OrderInv s) :
    OrderInv (accStep L s o) := by
  unfold OrderInv at *
  rcases s with ⟨pc, batch, sent, received⟩
  simp only at h
  cases pc <;> cases o <;> simp only [accStep]
  · split
    · simp [← h]
    · simp [← h]
  · split
    · simp [← h]
    · exact h
  · simp [← h]
  · exact h

theorem orderInv_run (L : Nat) (obs : List Obs) (s : Acc) (h : OrderInv s) :
    OrderInv (accRun L s obs) := by
  induction obs generalizing s with
  | nil => exact h
  | cons o obs ih => exact ih _ (orderInv_step L s o h)

theorem received_step (L : Nat) (s : Acc) (o : Obs) :
    (accStep L s o).received = s.received ++ eventsOf [o] := by
  rcases s with ⟨pc, batch, sent, received⟩
  cases pc <;> cases o <;> simp only [accStep]
  · split <;> rfl
  · split <;> simp [eventsOf]
  · rfl
  · simp [eventsOf]

theorem received_run (L : Nat) (obs : List Obs) (s : Acc) :
    (accRun L s obs).received = s.received ++ eventsOf obs := by
  induction obs generalizing s with
  | nil => simp [accRun_nil, eventsOf]
  | cons o obs ih =>
    rw [accRun_cons, ih, received_step]
    have : eventsOf (o :: obs) = eventsOf [o] ++ eventsOf obs := eventsOf_append [o] obs
    rw [this, List.append_assoc]

theorem sizeInv_step (L : Nat) (hL : 2 ≤ L) (s : Acc) (o : Obs) (h : SizeInv L s) :
    SizeInv L (accStep L s o) := by
  rcases s with ⟨pc, batch, sent, received⟩
  rcases h with ⟨hh, hr, hs⟩
  simp only at hh hr hs
  cases pc <;> cases o <;> simp only [accStep]
  · have hb := hh rfl
    split
    · rename_i hge
      refine ⟨?_, ?_, ?_⟩
      · intro _
        simp only [List.length_nil]
        omega
      · intro h
        cases h
      · intro b hb'
        rcases List.mem_append.1 hb' with h1 | h1
        · exact hs b h1
        · simp only [List.mem_singleton] at h1
          subst h1
          simp only [List.length_append, List.length_singleton] at hge ⊢
          omega
    · rename_i hlt
      refine ⟨?_, ?_, hs⟩
      · intro _
        simp only [List.length_append, List.length_singleton] at hlt ⊢
        omega
      · intro h
        cases h
  · have hb := hh rfl
    split
    · rename_i hpos
      refine ⟨?_, ?_, ?_⟩
      · intro h
        cases h
      · intro _
        rfl
      · intro b hb'
        rcases List.mem_append.1 hb' with h1 | h1
        · exact hs b h1
        · simp only [List.mem_singleton] at h1
          subst h1
          omega
    · rename_i hz
      refine ⟨?_, ?_, hs⟩
      · intro h
        cases h
      · intro _
        simp only at hz ⊢
        exact List.length_eq_zero.1 (by omega)
  · have hb := hr rfl
    subst hb
    refine ⟨?_, ?_, hs⟩
    · intro _
      simp only [List.nil_append, List.length_singleton]
      omega
    · intro h
      cases h
  · exact ⟨hh, hr, hs⟩

theorem sizeInv_run (L : Nat) (hL : 2 ≤ L) (obs : List Obs) (s : Acc) (h : SizeInv L s) :
    SizeInv L (accRun L s obs) := by
  induction obs generalizing s with
  | nil => exact h
  | cons o obs ih => exact ih _ (sizeInv_step L hL s o h)

theorem sizeInv_init (L : Nat) (hL : 2 ≤ L) : SizeInv L Acc.init := by
  refine ⟨?_, ?_, ?_⟩
  · intro _
    simp only [Acc.init, List.length_nil]
    omega
  · intro _
    rfl
  · intro b hb
    simp [Acc.init] at hb

theorem recvInv_step (L : Nat) (s : Acc) (o : Obs) (h : RecvInv s) :
    RecvInv (accStep L s o) := by
  rcases s with ⟨pc, batch, sent, received⟩
  unfold RecvInv at *
  cases pc <;> cases o <;> simp only [accStep]
  · split <;> (intro h; cases h)
  · split
    · intro _
      rfl
    · rename_i hz
      intro _
      simp only at hz ⊢
      exact List.length_eq_zero.1 (by omega)
  · intro h
    cases h
  · intro _
    exact h rfl

theorem recvInv_run (L : Nat) (obs : List Obs) (s : Acc) (h : RecvInv s) :
    RecvInv (accRun L s obs) := by
  induction obs generalizing s with
  | nil => exact h
  | cons o obs ih => exact ih _ (recvInv_step L s o h)

/-! ## Lemmas on consecutive chunks and runs without an idle gap -/

theorem consecutiveChunks_nil (L : Nat) : consecutiveChunks L [] = [] := by
  simp [consecutiveChunks]

theorem consecutiveChunks_lt (L : Nat) (es : List event) (h : es.length < L) (hne : es ≠ []) :
    consecutiveChunks L es = [es] := by
  have hpos : 0 < es.length := List.length_pos.2 hne
  have hd : es.length / L = 0 := Nat.div_eq_of_lt h
  have hm : es.length % L = es.length := Nat.mod_eq_of_lt h
  have hm0 : ¬ es.length % L = 0 := by omega
  simp [consecutiveChunks, hd, hm0]

theorem consecutiveChunks_ge (L : Nat) (hL : 0 < L) (es : List event) (h : L ≤ es.length) :
    consecutiveChunks L es = es.take L :: consecutiveChunks L (es.drop L) := by
  have hd : es.length / L = (es.length - L) / L + 1 := Nat.div_eq_sub_div hL h
  have hm : es.length % L = (es.length - L) % L := Nat.mod_eq_sub_mod h
  unfold consecutiveChunks
  rw [hd, hm, List.range_succ_eq_map]
  simp only [List.map_cons, List.map_map, List.length_drop, Nat.mul_zero, List.drop_zero,
    List.cons_append, List.drop_drop]
  congr 1
  congr 1
  · apply List.map_congr_left
    intro i _
    simp only [Function.comp, Nat.mul_succ]
    congr 2
    omega
  · split
    · rfl
    · congr 2
      rw [Nat.mul_succ]
      omega

theorem accRun_avails_small (L : Nat) (es : List event) (s : Acc) (hpc : s.pc = .head)
    (h : s.batch.length + es.length < L) :
    accRun L s (es.map Obs.avail) =
      { pc := .head, batch := s.batch ++ es, sent := s.sent, received := s.received ++ es } := by
  induction es generalizing s with
  | nil =>
    rcases s with ⟨pc, batch, sent, received⟩
    simp only at hpc
    subst hpc
    simp [accRun_nil]
  | cons e es ih =>
    rcases s with ⟨pc, batch, sent, received⟩
    simp only at hpc
    subst hpc
    simp only [List.length_cons] at h
    simp only [List.map_cons, accRun_cons]
    have hlt : ¬ (batch ++ [e]).length ≥ L := by
      simp only [List.length_append, List.length_singleton]
      omega
    have hstep : accStep L ⟨.head, batch, sent, received⟩ (.avail e)
        = ⟨.head, batch ++ [e], sent, received ++ [e]⟩ := by
      simp only [accStep, hlt, if_false]
    rw [hstep, ih _ rfl (by simp only [List.length_append, List.length_singleton]; omega)]
    simp

theorem accRun_avails_fill (L : Nat) (es : List event) (s : Acc) (hpc : s.pc = .head)
    (hne : es ≠ []) (h : s.batch.length + es.length = L) :
    accRun L s (es.map Obs.avail) =
      { pc := .head, batch := [], sent := s.sent ++ [s.batch ++ es],
        received := s.received ++ es } := by
  induction es generalizing s with
  | nil => exact absurd rfl hne
  | cons e es ih =>
    rcases s with ⟨pc, batch, sent, received⟩
    simp only at hpc
    subst hpc
    simp only [List.length_cons] at h
    simp only [List.map_cons, accRun_cons]
    by_cases hes : es = []
    · subst hes
      simp only [List.length_nil] at h
      have hge : (batch ++ [e]).length ≥ L := by
        simp only [List.length_append, List.length_singleton]
        omega
      simp only [accStep, hge, if_true, List.map_nil, accRun_nil]
    · have hpos : 0 < es.length := List.length_pos.2 hes
      have hlt : ¬ (batch ++ [e]).length ≥ L := by
        simp only [List.length_append, List.length_singleton]
        omega
      have hstep : accStep L ⟨.head, batch, sent, received⟩ (.avail e)
          = ⟨.head, batch ++ [e], sent, received ++ [e]⟩ := by
        simp only [accStep, hlt, if_false]
      rw [hstep, ih _ rfl hes (by simp only [List.length_append, List.length_singleton]; omega)]
      simp

theorem accRun_stutter (L : Nat) (k : Nat) (s : Acc) (hpc : s.pc = .recv) :
    accRun L s (List.replicate k Obs.empty) = s := by
  induction k with
  | zero => rfl
  | succ k ih =>
    rcases s with ⟨pc, batch, sent, received⟩
    simp only at hpc
    subst hpc
    rw [List.replicate_succ, accRun_cons]
    have : accStep L ⟨.recv, batch, sent, received⟩ .empty = ⟨.recv, batch, sent, received⟩ := rfl
    rw [this]
    exact ih

theorem accRun_gapless_aux (L : Nat) (hL : 0 < L) (n : Nat) :
    ∀ (es : List event) (s : Acc), es.length ≤ n → s.pc = .head → s.batch.length < L →
    accRun L s (es.map Obs.avail ++ [Obs.empty]) =
      { pc := .recv, batch := [], sent := s.sent ++ consecutiveChunks L (s.batch ++ es),
        received := s.received ++ es } := by
  induction n with
  | zero =>
    intro es s hn hpc hb
    have hes : es = [] := List.length_eq_zero.1 (by omega)
    subst hes
    rcases s with ⟨pc, batch, sent, received⟩
    simp only at hpc hb
    subst hpc
    simp only [List.map_nil, List.nil_append, accRun_cons, accRun_nil, List.append_nil]
    by_cases hz : batch = []
    · subst hz
      simp [accStep, consecutiveChunks_nil]
    · have hpos : 0 < batch.length := List.length_pos.2 hz
      simp [accStep, hpos, consecutiveChunks_lt L batch hb hz]
  | succ n ih =>
    intro es s hn hpc hb
    by_cases hsmall : s.batch.length + es.length < L
    · rw [accRun_append, accRun_avails_small L es s hpc hsmall]
      simp only [accRun_cons, accRun_nil]
      by_cases hz : s.batch ++ es = []
      · simp [accStep, hz, consecutiveChunks_nil]
      · have hpos : 0 < (s.batch ++ es).length := List.length_pos.2 hz
        have hlt : (s.batch ++ es).length < L := by
          simp only [List.length_append]
          omega
        have hpos2 : 0 < s.batch.length + es.length := by
          simpa only [List.length_append] using hpos
        simp only [accStep, List.length_append, gt_iff_lt, hpos2, if_true,
          consecutiveChunks_lt L _ hlt hz]
    · have hk : 0 < L - s.batch.length := by omega
      have hkle : L - s.batch.length ≤ es.length := by omega
      have hsplit : es = es.take (L - s.batch.length) ++ es.drop (L - s.batch.length) :=
        (List.take_append_drop _ _).symm
      have htl : (es.take (L - s.batch.length)).length = L - s.batch.length := by
        simp only [List.length_take]
        omega
      have htne : es.take (L - s.batch.length) ≠ [] := by
        intro h0
        rw [h0] at htl
        simp only [List.length_nil] at htl
        omega
      have hrun : accRun L s (es.map Obs.avail ++ [Obs.empty]) =
          accRun L (accRun L s ((es.take (L - s.batch.length)).map Obs.avail))
            ((es.drop (L - s.batch.length)).map Obs.avail ++ [Obs.empty]) := by
        rw [← accRun_append, ← List.append_assoc, ← List.map_append, ← hsplit]
      rw [hrun, accRun_avails_fill L _ s hpc htne (by omega)]
      rw [ih (es.drop (L - s.batch.length)) _ (by simp only [List.length_drop]; omega) rfl
        (by simp only [List.length_nil]; exact hL)]
      have hge : L ≤ (s.batch ++ es).length := by
        simp only [List.length_append]
        omega
      rw [consecutiveChunks_ge L hL (s.batch ++ es) hge]
      have ht : (s.batch ++ es).take L = s.batch ++ es.take (L - s.batch.length) := by
        rw [List.take_append_eq_append_take, List.take_of_length_le (by omega)]
      have hd : (s.batch ++ es).drop L = es.drop (L - s.batch.length) := by
        rw [List.drop_append_eq_append_drop, List.drop_of_length_le (by omega), List.nil_append]
      rw [ht, hd]
      simp only [List.nil_append, List.append_assoc, List.singleton_append]
      congr 1
      rw [List.take_append_drop]

theorem accRun_gapless (L : Nat) (hL : 0 < L) (es : List event) (s : Acc) (k : Nat)
    (hpc : s.pc = .head) (hb : s.batch.length < L) :
    accRun L s (es.map Obs.avail ++ List.replicate (k + 1) Obs.empty) =
      { pc := .recv, batch := [], sent := s.sent ++ consecutiveChunks L (s.batch ++ es),
        received := s.received ++ es } := by
  have : es.map Obs.avail ++ List.replicate (k + 1) Obs.empty
      = (es.map Obs.avail ++ [Obs.empty]) ++ List.replicate k Obs.empty := by
    rw [List.replicate_succ, List.append_assoc]
    rfl
  rw [this, accRun_append, accRun_gapless_aux L hL es.length es s (Nat.le_refl _) hpc hb]
  exact accRun_stutter L k _ rfl

theorem accRun_gapless_init (L : Nat) (hL : 0 < L) (es : List event) (k : Nat) :
    accRun L Acc.init (es.map Obs.avail ++ List.replicate (k + 1) Obs.empty) =
      { pc := .recv, batch := [], sent := consecutiveChunks L es, received := es } := by
  rw [accRun_gapless L hL es Acc.init k rfl (by simp only [Acc.init, List.length_nil]; exact hL)]
  simp [Acc.init]

theorem accRun_gapless_parked (L : Nat) (hL : 2 ≤ L) (es : List event) (k : Nat) :
    accRun L Acc.parked (es.map Obs.avail ++ List.replicate (k + 1) Obs.empty) =
      { pc := .recv, batch := [], sent := consecutiveChunks L es, received := es } := by
  cases es with
  | nil =>
    simp only [List.map_nil, List.nil_append]
    rw [accRun_stutter L (k + 1) Acc.parked rfl]
    simp [Acc.parked, consecutiveChunks_nil]
  | cons e es =>
    simp only [List.map_cons, List.cons_append, accRun_cons]
    have hstep : accStep L Acc.parked (.avail e) = ⟨.head, [e], [], [e]⟩ := rfl
    rw [hstep, accRun_gapless L (by omega) es _ k rfl
      (by simp only [List.length_singleton]; omega)]
    simp


/-! ## Theorems: the accumulator loop of startSending -/

/-- C2: for every arrival schedule and at every point of it, the batches passed to
`sendBatch` so far, concatenated in call order and followed by the batch in
progress, are exactly the events received from the queue so far, in the
order received. -/
theorem startSending_order_preserved (obs : List Obs) (n : Nat) :
    (startSending (obs.take n)).sent.flatten ++ (startSending (obs.take n)).batch
      = eventsOf (obs.take n) ∧
    (startSending (obs.take n)).received = eventsOf (obs.take n) := by
  have hr : (startSending (obs.take n)).received = eventsOf (obs.take n) := by
    unfold startSending
    rw [received_run]
    rfl
  refine ⟨?_, hr⟩
  have h := orderInv_run batchLimit (obs.take n) Acc.init rfl
  unfold OrderInv at h
  rw [← hr]
  exact h

/-- C3: with `batchLimit = 500`, when `N` events (any `N`, so every `N ≥ 1`) are
received without an idle gap and the queue then stays empty, the batches passed to `sendBatch` are the
consecutive chunks of the sequence: `N / 500` batches of 500 events, then one
batch of the remaining `N % 500` events when that is not 0; the same from the
loop head and from the blocking receive; 501 events give the batches of the
first 500 events and of the last one. -/
theorem startSending_gapless_chunks (es : List event) (k : Nat) :
    (startSending (es.map Obs.avail ++ List.replicate (k + 1) Obs.empty)).sent
      = consecutiveChunks 500 es ∧
    (accRun batchLimit Acc.parked (es.map Obs.avail ++ List.replicate (k + 1) Obs.empty)).sent
      = consecutiveChunks 500 es ∧
    consecutiveChunks 500 es
      = (List.range (es.length / 500)).map (fun i => (es.drop (500 * i)).take 500) ++
        (if es.length % 500 = 0 then [] else [es.drop (500 * (es.length / 500))]) ∧
    (consecutiveChunks 500 es).flatten = es ∧
    (es.length = 501 → consecutiveChunks 500 es = [es.take 500, es.drop 500]) := by
  have h1 := accRun_gapless_init batchLimit (by decide) es k
  have h2 := accRun_gapless_parked batchLimit (by decide) es k
  have hb : batchLimit = 500 := rfl
  refine ⟨?_, ?_, rfl, ?_, ?_⟩
  · unfold startSending
    rw [h1, hb]
  · rw [h2, hb]
  · have h := orderInv_run batchLimit
      (es.map Obs.avail ++ List.replicate (k + 1) Obs.empty) Acc.init rfl
    rw [h1] at h
    unfold OrderInv at h
    simpa [hb] using h
  · intro h501
    rw [consecutiveChunks_ge 500 (by decide) es (by omega)]
    rw [consecutiveChunks_lt 500 (es.drop 500) (by simp only [List.length_drop]; omega)]
    intro h0
    have : (es.drop 500).length = 0 := by rw [h0]; rfl
    simp only [List.length_drop] at this
    omega

/-- Witness of C3: 501 events received in one burst. -/
theorem startSending_gapless_chunks_witness :
    (List.replicate 501 evA).length = 501 ∧
    (startSending ((List.replicate 501 evA).map Obs.avail ++ List.replicate (0 + 1) Obs.empty)).sent
      = [(List.replicate 501 evA).take 500, (List.replicate 501 evA).drop 500] :=
  ⟨List.length_replicate 501 evA,
   (startSending_gapless_chunks (List.replicate 501 evA) 0).1.trans
     ((startSending_gapless_chunks (List.replicate 501 evA) 0).2.2.2.2
       (List.length_replicate 501 evA))⟩

/-- C4 (as stated, refuted): two events separated by an observation of the empty
queue are dispatched as two batches of one event each, and a run in which no
event arrives dispatches no batch at all. -/
theorem startSending_one_batch_counterexample :
    (startSending [.avail evA, .empty, .avail evB, .empty]).sent = [[evA], [evB]] ∧
    (startSending [.avail evA, .empty, .avail evB, .empty]).sent ≠ [[evA, evB]] ∧
    eventsOf [.avail evA, .empty, .avail evB, .empty] = [evA, evB] ∧
    (startSending [.empty]).sent = [] := by
  refine ⟨rfl, ?_, rfl, rfl⟩
  have h : (startSending [.avail evA, .empty, .avail evB, .empty]).sent = [[evA], [evB]] := rfl
  rw [h]
  intro hc
  have := congrArg List.length hc
  simp at this

/-- C4 (amended): for `1 ≤ N < 500` events received without an idle gap, after
which the queue stays empty, exactly one batch is dispatched and it holds all
`N` events in order, from the loop head as from the blocking receive. -/
theorem startSending_gapless_one_batch (es : List event) (k : Nat)
    (h1 : 1 ≤ es.length) (h2 : es.length < batchLimit) :
    (startSending (es.map Obs.avail ++ List.replicate (k + 1) Obs.empty)).sent = [es] ∧
    (accRun batchLimit Acc.parked (es.map Obs.avail ++ List.replicate (k + 1) Obs.empty)).sent
      = [es] ∧
    (startSending (es.map Obs.avail ++ List.replicate (k + 1) Obs.empty)).batch = [] := by
  have hne : es ≠ [] := by
    intro h0
    rw [h0] at h1
    simp at h1
  have hc := consecutiveChunks_lt batchLimit es h2 hne
  have ha := accRun_gapless_init batchLimit (by decide) es k
  have hp := accRun_gapless_parked batchLimit (by decide) es k
  refine ⟨?_, ?_, ?_⟩
  · unfold startSending
    rw [ha, hc]
  · rw [hp, hc]
  · unfold startSending
    rw [ha]

/-- Witness of C4 (amended): session "s1"/"demo", lines "a" and "b" in one burst give
one batch of two events with raw strings "a" then "b". -/
theorem startSending_gapless_one_batch_witness :
    1 ≤ [evA, evB].length ∧ [evA, evB].length < batchLimit ∧
    (startSending ([evA, evB].map Obs.avail ++ List.replicate (0 + 1) Obs.empty)).sent
      = [[evA, evB]] ∧
    [evA, evB].map (fun e => e.RawString) = ["a", "b"] :=
  ⟨by decide, by decide,
   (startSending_gapless_one_batch [evA, evB] 0 (by decide) (by decide)).1, rfl⟩

/-- C7: with `batchLimit = 500`, for every arrival schedule every batch passed to
`sendBatch` holds at least 1 and at most 500 events. -/
theorem startSending_batch_sizes (obs : List Obs) (b : List event)
    (hb : b ∈ (startSending obs).sent) : 1 ≤ b.length ∧ b.length ≤ 500 :=
  (sizeInv_run batchLimit (by decide) obs Acc.init (sizeInv_init batchLimit (by decide))).2.2 b hb

/-- Witness of C7: one event, then the queue is found empty. -/
theorem startSending_batch_sizes_witness :
    [evA] ∈ (startSending [.avail evA, .empty]).sent ∧
    1 ≤ [evA].length ∧ [evA].length ≤ 500 :=
  ⟨List.mem_singleton.2 rfl,
   startSending_batch_sizes [.avail evA, .empty] [evA] (List.mem_singleton.2 rfl)⟩

/-- C8 (as stated, refuted): with the threshold 1, the event appended by the
blocking receive is followed by one more before the size check runs, and a
batch of 2 events is passed to `sendBatch`. -/
theorem accRun_limit_one_counterexample :
    (accRun 1 Acc.init [.empty, .avail evA]).batch = [evA] ∧
    (accRun 1 Acc.init [.empty, .avail evA]).sent = [] ∧
    (accRun 1 Acc.init [.empty, .avail evA, .avail evB]).sent = [[evA, evB]] ∧
    ¬ (∀ b ∈ (accRun 1 Acc.init [.empty, .avail evA, .avail evB]).sent, b.length ≤ 1) := by
  refine ⟨rfl, rfl, rfl, ?_⟩
  intro h
  have h2 := h [evA, evB] (List.mem_singleton.2 rfl)
  simp at h2

/-- C8 (amended): for every threshold `L ≥ 2` and every arrival schedule, the batch
in progress holds fewer than `L` events at the loop head and none during the
blocking receive, so never more than `L`, and no batch passed to `sendBatch`
has more than `L` events. -/
theorem accRun_never_exceeds_limit (L : Nat) (hL : 2 ≤ L) (obs : List Obs) :
    (accRun L Acc.init obs).batch.length ≤ L ∧
    ((accRun L Acc.init obs).pc = .head → (accRun L Acc.init obs).batch.length < L) ∧
    ((accRun L Acc.init obs).pc = .recv → (accRun L Acc.init obs).batch = []) ∧
    (∀ b ∈ (accRun L Acc.init obs).sent, b.length ≤ L) := by
  have h := sizeInv_run L hL obs Acc.init (sizeInv_init L hL)
  rcases h with ⟨hh, hr, hs⟩
  refine ⟨?_, hh, hr, fun b hb => (hs b hb).2⟩
  cases hpc : (accRun L Acc.init obs).pc with
  | head => exact Nat.le_of_lt (hh hpc)
  | recv =>
    rw [hr hpc]
    simp

/-- Witness of C8 (amended): the threshold 2 on the schedule that breaks the
threshold 1. -/
theorem accRun_never_exceeds_limit_witness :
    2 ≤ 2 ∧
    (accRun 2 Acc.init [.empty, .avail evA, .avail evB]).batch.length ≤ 2 ∧
    (∀ b ∈ (accRun 2 Acc.init [.empty, .avail evA, .avail evB]).sent, b.length ≤ 2) :=
  ⟨by decide,
   (accRun_never_exceeds_limit 2 (by decide) [.empty, .avail evA, .avail evB]).1,
   (accRun_never_exceeds_limit 2 (by decide) [.empty, .avail evA, .avail evB]).2.2.2⟩

/-- C9: for every arrival schedule, whenever the loop is in its blocking receive the
batch in progress is empty and every event received so far has been passed to
`sendBatch`; and, wherever the loop stands, once a receive finds the queue
empty the loop is in the blocking receive with an empty batch and every event
received so far has been passed to `sendBatch`, in order: an event is
dispatched at the latest when the non-blocking receive next finds the queue
empty. -/
theorem startSending_blocks_with_empty_batch (obs : List Obs) :
    ((startSending obs).pc = .recv →
      (startSending obs).batch = [] ∧ (startSending obs).sent.flatten = eventsOf obs) ∧
    (startSending (obs ++ [.empty])).pc = .recv ∧
    (startSending (obs ++ [.empty])).batch = [] ∧
    (startSending (obs ++ [.empty])).sent.flatten = eventsOf obs ∧
    ((startSending obs).pc = .head →
      (startSending (obs ++ [.empty])).sent
        = (startSending obs).sent ++
          (if (startSending obs).batch = [] then [] else [(startSending obs).batch])) := by
  have hrecv : ∀ o : List Obs, (startSending o).pc = .recv →
      (startSending o).batch = [] ∧ (startSending o).sent.flatten = eventsOf o := by
    intro o ho
    have hb : (startSending o).batch = [] := recvInv_run batchLimit o Acc.init (fun _ => rfl) ho
    have hord := orderInv_run batchLimit o Acc.init rfl
    have hr : (startSending o).received = eventsOf o := by
      unfold startSending
      rw [received_run]
      rfl
    unfold OrderInv at hord
    unfold startSending at hb hr
    rw [hb, hr, List.append_nil] at hord
    exact ⟨hb, hord⟩
  have hunf : startSending (obs ++ [.empty]) = accStep batchLimit (startSending obs) .empty := by
    unfold startSending
    rw [accRun_append]
    rfl
  have hstay : (startSending (obs ++ [.empty])).pc = .recv := by
    rw [hunf]
    generalize startSending obs = s
    rcases s with ⟨pc, batch, sent, received⟩
    cases pc
    · simp only [accStep]
      split <;> rfl
    · rfl
  have hev : eventsOf (obs ++ [.empty]) = eventsOf obs := by
    rw [eventsOf_append]
    simp [eventsOf]
  refine ⟨hrecv obs, hstay, (hrecv _ hstay).1, ?_, ?_⟩
  · rw [(hrecv _ hstay).2, hev]
  · intro hhead
    rw [hunf]
    generalize startSending obs = s at hhead
    rcases s with ⟨pc, batch, sent, received⟩
    simp only at hhead
    subst hhead
    simp only [accStep]
    by_cases hz : batch = []
    · subst hz
      simp
    · have hpos : 0 < batch.length := List.length_pos.2 hz
      simp [hpos, hz]

/-- Witness of C9: two events, then the queue is found empty. -/
theorem startSending_blocks_with_empty_batch_witness :
    (startSending [.avail evA, .avail evB, .empty]).pc = .recv ∧
    (startSending [.avail evA, .avail evB, .empty]).batch = [] ∧
    (startSending [.avail evA, .avail evB, .empty]).sent.flatten
      = eventsOf [.avail evA, .avail evB, .empty] ∧
    (startSending [.avail evA, .avail evB]).pc = .head ∧
    (startSending ([.avail evA, .avail evB] ++ [.empty])).sent
      = (startSending [.avail evA, .avail evB]).sent ++
        (if (startSending [.avail evA, .avail evB]).batch = [] then []
         else [(startSending [.avail evA, .avail evB]).batch]) ∧
    (startSending ([.avail evA, .avail evB] ++ [.empty])).sent = [[evA, evB]] :=
  ⟨rfl,
   ((startSending_blocks_with_empty_batch [.avail evA, .avail evB, .empty]).1 rfl).1,
   ((startSending_blocks_with_empty_batch [.avail evA, .avail evB, .empty]).1 rfl).2,
   rfl,
   (startSending_blocks_with_empty_batch [.avail evA, .avail evB]).2.2.2.2 rfl,
   rfl⟩

end Humio
